import Mathlib

/-!
Shallow embedding of `src/GUI.py` (BookScanner).

The program's persistent state is a single flat directory (`TEMP_DIR`) of
files.  We model it as an association list from file names to file data.
File names are Python strings, modelled as `List Char` (Python compares
strings pointwise by code point, with a proper prefix comparing less --
exactly lexicographic order on the character list).  File contents are
opaque byte strings, modelled by `FData.raw`; a file created or
truncated by `open(path, "wb")` with nothing yet written is `FData.empty`;
the PDF produced by `img2pdf.convert` is modelled abstractly by
`FData.pdfOf`, recording the contents of its page images in order (one
page per input image, in the given order, which is the library's
documented behaviour), and the conversion fails when an input path does
not hold a readable image.

Modelling notes, all matching the source:
* `sorted(TEMP_DIR.glob("*.png"))` = take the names of the directory
  entries whose name ends in ".png" and sort them lexicographically
  (`sortedGlob`).  Real directories never hold two files of the same
  name, so where it matters theorems carry a `Nodup` hypothesis on the
  name list; on name-distinct inputs any sorting algorithm produces the
  same list, so an insertion sort stands in for Python's Timsort.
* `pathlib.Path.stem` (`stem`): the name up to its last dot, where a dot
  at position 0 or at the very end does not count as starting a suffix.
* `int(s)` (`parseNat?`): succeeds on non-empty all-digit strings with
  the denoted value, fails (raises `ValueError`) otherwise.  (Python's
  `int` also accepts signs/whitespace/underscores; no file name arising
  here contains those, and the claims do not depend on them.)
* `f"{n:04d}"` (`pad4`): the decimal digits of `n`, left-padded with
  zeros to at least four characters.
* A failure path that raises an uncaught Python exception is modelled by
  a distinguished error result (`Option.none` / `.indexError` /
  `.parseError`) with the state unchanged.
-/

abbrev FileName := List Char

inductive FData where
  | raw (bytes : Nat)
  | empty
  | pdfOf (pages : List Nat)
  deriving DecidableEq

abbrev Dir := List (FileName × FData)

def pngExt : List Char := ".png".toList

def names (d : Dir) : List FileName := d.map Prod.fst

/-- Python string comparison `s < t`: lexicographic by code point. -/
def lexLt : List Char → List Char → Bool
  | [], [] => false
  | [], _ :: _ => true
  | _ :: _, [] => false
  | a :: as, b :: bs => if a < b then true else if a = b then lexLt as bs else false

/-- Insert into a list sorted by `lexLt`. -/
def insertName (x : FileName) : List FileName → List FileName
  | [] => [x]
  | y :: ys => if lexLt x y then x :: y :: ys else y :: insertName x ys

/-- Sort a list of names ascending by `lexLt` (Python `sorted`). -/
def sortNames : List FileName → List FileName
  | [] => []
  | x :: xs => insertName x (sortNames xs)

/-- Does a name match the glob pattern `*.png`, i.e. end in `.png`? -/
def hasPngExt (s : FileName) : Bool := decide (s.drop (s.length - 4) = pngExt)

/-- The idiom `sorted(TEMP_DIR.glob(f"*{IMAGE_EXT}"))` of GUI.py lines
40, 131, 155, 167: the spec's `list()` operation. -/
def sortedGlob (d : Dir) : List FileName := sortNames ((names d).filter hasPngExt)

/-- Index of the last `'.'` in a name, if any (Python `str.rfind('.')`,
restricted to the found case). -/
def lastDotIdx : List Char → Option Nat
  | [] => none
  | c :: cs =>
    match lastDotIdx cs with
    | some i => some (i + 1)
    | none => if c = '.' then some 0 else none

/-- `pathlib.Path.stem`: the final component without its last suffix; a
dot at index 0 or in final position does not open a suffix. -/
def stem (s : FileName) : FileName :=
  match lastDotIdx s with
  | none => s
  | some i => if 0 < i ∧ i < s.length - 1 then s.take i else s

/-- Digit-by-digit accumulator for `parseNat?`. -/
def parseDigits : List Char → Nat → Option Nat
  | [], acc => some acc
  | c :: cs, acc => if c.isDigit then parseDigits cs (acc * 10 + (c.toNat - 48)) else none

/-- Python `int(s)` on the strings arising here: all-digit and non-empty
or failure. -/
def parseNat? : FileName → Option Nat
  | [] => none
  | c :: cs => parseDigits (c :: cs) 0

/-- The numeric sequence number a page file's name denotes (0 when the
stem does not parse; used only to state properties). -/
def seqNum (s : FileName) : Nat := (parseNat? (stem s)).getD 0

/-- Exactly `k` base-10 digit characters of `n` (big-endian, leading
zeros kept). -/
def padDigits : Nat → Nat → List Char
  | 0, _ => []
  | k + 1, n => Nat.digitChar (n / 10 ^ k) :: padDigits k (n % 10 ^ k)

/-- Fuelled digit counter; the fuel always dominates the argument. -/
def numDigitsGo : Nat → Nat → Nat
  | 0, _ => 1
  | f + 1, n => if n < 10 then 1 else numDigitsGo f (n / 10) + 1

/-- Number of decimal digits of `n`. -/
def numDigits (n : Nat) : Nat := numDigitsGo n n

/-- Python `f"{n:04d}"`: decimal digits of `n`, zero-padded on the left
to at least width 4. -/
def pad4 (n : Nat) : FileName := padDigits (max 4 (numDigits n)) n

/-- GUI.py lines 38-44, `next_filename`: lexicographically last globbed
name, parse its stem, add one, format `04d`; `none` models the uncaught
`ValueError` when the last stem is not numeric. -/
def next_filename (d : Dir) : Option FileName :=
  match (sortedGlob d).getLast? with
  | none => some "0001.png".toList
  | some last => (parseNat? (stem last)).map (fun n => pad4 (n + 1) ++ pngExt)

/-- The numeric content of `next_filename` (the spec's
`nextSequenceNumber()`): 1 on an empty glob, else last stem + 1. -/
def nextSeq (d : Dir) : Option Nat :=
  match (sortedGlob d).getLast? with
  | none => some 1
  | some last => (parseNat? (stem last)).map (· + 1)

/-- Write a file: replace the entry of that name if present, else create
it (what `cv2.imwrite` / `open(dest, "wb")` do on a directory). -/
def writeFile (d : Dir) (name : FileName) (c : FData) : Dir :=
  match d with
  | [] => [(name, c)]
  | p :: ps => if p.1 = name then (name, c) :: ps else p :: writeFile ps name c

/-- `Path.unlink(missing_ok=True)`: remove the entry of that name. -/
def eraseFile (d : Dir) (name : FileName) : Dir :=
  d.filter (fun p => decide (p.1 ≠ name))

/-- Read one input of `img2pdf.convert`: succeeds with the raw image
bytes when the path holds a captured image, fails (the library raises)
when the file is missing, empty, or not an image. -/
def readImage? (d : Dir) (name : FileName) : Option Nat :=
  match d.lookup name with
  | some (.raw b) => some b
  | _ => none

/-- `img2pdf.convert` reading all its input paths in order: all page
bytes, or failure as soon as one input is unreadable. -/
def readPages (d : Dir) : List FileName → Option (List Nat)
  | [] => some []
  | n :: ns =>
    match readImage? d n, readPages d ns with
    | some b, some bs => some (b :: bs)
    | _, _ => none

inductive CapResult where
  | noFrame
  | parseError
  | saved (name : FileName)
  deriving DecidableEq

/-- GUI.py lines 120-127, `capture_page`: `frame = none` models
`cap.read()` returning `ret = False`; on success the frame is written at
`next_filename()`. -/
def capture_page (frame : Option Nat) (d : Dir) : CapResult × Dir :=
  match frame with
  | none => (.noFrame, d)
  | some f =>
    match next_filename d with
    | none => (.parseError, d)
    | some name => (.saved name, writeFile d name (.raw f))

inductive DelResult where
  | noSelection
  | indexError
  | cancelled
  | deleted (name : FileName)
  deriving DecidableEq

/-- GUI.py lines 151-163, `delete_selected`: `sel` is the stored
`selected_index` (set by `select_thumbnail` at selection time), `confirm`
the answer to the `askyesno` dialog.  The file deleted is
`sorted(TEMP_DIR.glob("*.png"))[sel]`, recomputed at deletion time;
`.indexError` models the uncaught `IndexError` on an out-of-range index
(raised before the dialog, as in the source). -/
def delete_selected (sel : Option Nat) (confirm : Bool) (d : Dir) : DelResult × Dir :=
  match sel with
  | none => (.noSelection, d)
  | some idx =>
    match (sortedGlob d).get? idx with
    | none => (.indexError, d)
    | some name =>
      if confirm then (.deleted name, eraseFile d name) else (.cancelled, d)

inductive PdfResult where
  | noPages
  | cancelled
  | convertError
  | saved (n : Nat)
  deriving DecidableEq

/-- GUI.py lines 166-176, `make_pdf`: glob the catalog; empty glob shows
the "No pages" message and returns before the save dialog; `destChoice =
none` models the user cancelling the dialog.  Otherwise the source runs
`open(dest, "wb")` FIRST - creating or truncating the destination to an
empty file - and only then evaluates `img2pdf.convert`, which reads each
input path from disk.  A destination colliding with a page file is
therefore truncated before it is read, and the conversion then fails on
the emptied file (`.convertError`, an uncaught exception: the
destination is left truncated and no PDF is written).  On success the
converted PDF - one page per input image, in the given order, carrying
each source image's bytes - is written at the destination. -/
def make_pdf (d : Dir) (destChoice : Option FileName) : PdfResult × Dir :=
  let images := sortedGlob d
  if images.isEmpty then (.noPages, d)
  else
    match destChoice with
    | none => (.cancelled, d)
    | some dest =>
      let opened := writeFile d dest .empty
      match readPages opened images with
      | none => (.convertError, opened)
      | some pages => (.saved images.length, writeFile opened dest (.pdfOf pages))

/-- The capture device: all the program observes of `cv2.VideoCapture`
is whether it is currently opened. -/
structure Camera where
  opened : Bool
  deriving DecidableEq

/-- `cv2.VideoCapture.release`. -/
def Camera.release (_ : Camera) : Camera := { opened := false }

/-- GUI.py lines 179-182, `on_closing`: release only while opened. -/
def on_closing (c : Camera) : Camera := if c.opened then c.release else c

/-- One user append: `capture_page` on a successfully read frame (frame
bytes 0); a no-op if `next_filename` fails.  Used to state the spec's
"after appending N pages" scenarios. -/
def appendStep (d : Dir) : Dir :=
  match next_filename d with
  | none => d
  | some name => writeFile d name (.raw 0)

/-- The catalog after `n` appends starting from an empty directory. -/
def appendTimes : Nat → Dir
  | 0 => []
  | n + 1 => appendStep (appendTimes n)

/-- Catalog states reachable from an empty directory by the program's
own operations: captures (append at `next_filename()`) and confirmed
deletes of a valid listing position. -/
inductive Reach : Dir → Prop where
  | empty : Reach []
  | append {d name} (f : Nat) : Reach d → next_filename d = some name →
      Reach (writeFile d name (.raw f))
  | delete {d i name} : Reach d → (sortedGlob d).get? i = some name →
      Reach (eraseFile d name)

/-- The canonical catalog after `n` appends: pages `0001 .. n`, each
holding frame bytes 0. -/
def canonical (n : Nat) : Dir :=
  (List.range n).map (fun i => (pad4 (i + 1) ++ pngExt, FData.raw 0))

example : pad4 1 ++ pngExt = "0001.png".toList := by decide
example : pad4 10000 = "10000".toList := by decide
example : stem "0001.png".toList = "0001".toList := by decide
example : stem "notes.png".toList = "notes".toList := by decide
example : parseNat? "0001".toList = some 1 := by decide
example : parseNat? "notes".toList = none := by decide
example : lexLt "10000.png".toList "9999.png".toList = true := by decide
example : sortedGlob [("0002.png".toList, .raw 2), ("0001.png".toList, .raw 1)] =
    ["0001.png".toList, "0002.png".toList] := by decide
example : next_filename [] = some "0001.png".toList := by decide
example : seqNum "10000.png".toList = 10000 := by decide

/-! ### The lexicographic order: basic laws -/

theorem lexLt_irrefl : ∀ s : List Char, lexLt s s = false
  | [] => rfl
  | c :: cs => by
    rw [lexLt, if_neg (lt_irrefl c), if_pos rfl]
    exact lexLt_irrefl cs

theorem lexLt_asymm : ∀ a b : List Char, lexLt a b = true → lexLt b a = false
  | [], [] => by simp [lexLt]
  | [], _ :: _ => fun _ => rfl
  | _ :: _, [] => by simp [lexLt]
  | a :: as, b :: bs => by
    rw [lexLt, lexLt]
    intro h
    by_cases hab : a < b
    · rw [if_neg (lt_asymm hab), if_neg (ne_of_gt hab)]
    · rw [if_neg hab] at h
      by_cases heq : a = b
      · subst heq
        rw [if_pos rfl] at h
        rw [if_neg hab, if_pos rfl]
        exact lexLt_asymm as bs h
      · rw [if_neg heq] at h
        exact absurd h (by simp)

theorem lexLt_trans : ∀ b a c : List Char, lexLt a b = true → lexLt b c = true →
    lexLt a c = true := by
  intro b
  induction b with
  | nil =>
    intro a c h1 _
    cases a <;> simp [lexLt] at h1
  | cons y ys ih =>
    intro a c h1 h2
    cases a with
    | nil =>
      cases c with
      | nil => simp [lexLt] at h2
      | cons z zs => rfl
    | cons x xs =>
      cases c with
      | nil => simp [lexLt] at h2
      | cons z zs =>
        rw [lexLt] at h1 h2 ⊢
        by_cases hxy : x < y
        · by_cases hyz : y < z
          · rw [if_pos (lt_trans hxy hyz)]
          · rw [if_neg hyz] at h2
            by_cases heq : y = z
            · subst heq
              rw [if_pos hxy]
            · rw [if_neg heq] at h2
              exact absurd h2 (by simp)
        · rw [if_neg hxy] at h1
          by_cases hxeq : x = y
          · rw [if_pos hxeq] at h1
            by_cases hyz : y < z
            · rw [if_pos (hxeq ▸ hyz)]
            · rw [if_neg hyz] at h2
              by_cases hyeqz : y = z
              · have hxz : x = z := hxeq.trans hyeqz
                rw [if_pos hyeqz] at h2
                rw [if_neg (by rw [hxz]; exact lt_irrefl z), if_pos hxz]
                exact ih xs zs h1 h2
              · rw [if_neg hyeqz] at h2
                exact absurd h2 (by simp)
          · rw [if_neg hxeq] at h1
            exact absurd h1 (by simp)

theorem eq_of_not_lexLt : ∀ a b : List Char, lexLt a b = false → lexLt b a = false → a = b := by
  intro a
  induction a with
  | nil =>
    intro b h1 _
    cases b with
    | nil => rfl
    | cons y ys => simp [lexLt] at h1
  | cons x xs ih =>
    intro b h1 h2
    cases b with
    | nil => simp [lexLt] at h2
    | cons y ys =>
      rw [lexLt] at h1 h2
      by_cases hxy : x < y
      · rw [if_pos hxy] at h1; exact absurd h1 (by simp)
      · by_cases hyx : y < x
        · rw [if_pos hyx] at h2; exact absurd h2 (by simp)
        · have hxe : x = y := le_antisymm (le_of_not_lt hyx) (le_of_not_lt hxy)
          subst hxe
          rw [if_neg hxy, if_pos rfl] at h1 h2
          rw [ih ys h1 h2]

/-! ### Sorting: permutation, sortedness, fixed points -/

theorem insertName_perm : ∀ (x : FileName) (l : List FileName),
    List.Perm (insertName x l) (x :: l) := by
  intro x l
  induction l with
  | nil => exact List.Perm.refl _
  | cons y ys ih =>
    by_cases h : lexLt x y = true
    · simp [insertName, h]
    · simp only [insertName, if_neg h]
      exact (ih.cons y).trans (List.Perm.swap x y ys)

theorem sortNames_perm : ∀ l : List FileName, List.Perm (sortNames l) l := by
  intro l
  induction l with
  | nil => exact List.Perm.refl _
  | cons x xs ih => exact (insertName_perm x (sortNames xs)).trans (ih.cons x)

theorem mem_sortNames {z : FileName} {l : List FileName} : z ∈ sortNames l ↔ z ∈ l :=
  (sortNames_perm l).mem_iff

theorem mem_insertName {z x : FileName} {l : List FileName} :
    z ∈ insertName x l ↔ z = x ∨ z ∈ l := by
  rw [(insertName_perm x l).mem_iff, List.mem_cons]

theorem pairwise_insertName {l : List FileName} {x : FileName}
    (h : l.Pairwise (fun a b => lexLt b a = false)) :
    (insertName x l).Pairwise (fun a b => lexLt b a = false) := by
  induction l with
  | nil => simp [insertName]
  | cons y ys ih =>
    rcases List.pairwise_cons.mp h with ⟨hy, hys⟩
    by_cases hxy : lexLt x y = true
    · simp only [insertName, if_pos hxy]
      refine List.pairwise_cons.mpr ⟨?_, h⟩
      intro z hz
      rcases List.mem_cons.mp hz with rfl | hz'
      · exact lexLt_asymm x z hxy
      · cases hzx : lexLt z x with
        | false => rfl
        | true => exact absurd (lexLt_trans x z y hzx hxy) (by simp [hy z hz'])
    · have hxy' : lexLt x y = false := by simpa using hxy
      simp only [insertName, if_neg hxy]
      refine List.pairwise_cons.mpr ⟨?_, ih hys⟩
      intro z hz
      rcases mem_insertName.mp hz with rfl | hz'
      · exact hxy'
      · exact hy z hz'

theorem sortNames_sorted : ∀ l : List FileName,
    (sortNames l).Pairwise (fun a b => lexLt b a = false)
  | [] => List.Pairwise.nil
  | _ :: xs => pairwise_insertName (sortNames_sorted xs)

theorem sortNames_nodup {l : List FileName} (h : l.Nodup) : (sortNames l).Nodup :=
  (sortNames_perm l).nodup_iff.mpr h

theorem sortNames_eq_self {l : List FileName}
    (h : l.Pairwise (fun a b => lexLt a b = true)) : sortNames l = l := by
  induction l with
  | nil => rfl
  | cons x xs ih =>
    rcases List.pairwise_cons.mp h with ⟨hx, hxs⟩
    rw [sortNames, ih hxs]
    cases xs with
    | nil => rfl
    | cons y ys => simp only [insertName, if_pos (hx y (by simp))]

theorem getLast?_eq_max : ∀ (L : List FileName) (m : FileName),
    L.Pairwise (fun a b => lexLt b a = false) → m ∈ L →
    (∀ y ∈ L, lexLt m y = false) → L.getLast? = some m := by
  intro L
  induction L with
  | nil => intro m _ hm; simp at hm
  | cons a L' ih =>
    intro m hp hm hmax
    rcases List.pairwise_cons.mp hp with ⟨ha, hp'⟩
    cases L' with
    | nil =>
      simp only [List.mem_singleton] at hm
      subst hm; rfl
    | cons b L'' =>
      rw [List.getLast?_cons_cons]
      apply ih m hp'
      · rcases List.mem_cons.mp hm with rfl | h
        · have h1 : lexLt b m = false := ha b (by simp)
          have h2 : lexLt m b = false := hmax b (by simp)
          rw [eq_of_not_lexLt m b h2 h1]
          simp
        · exact h
      · intro y hy; exact hmax y (by simp [hy])

theorem pairwise_rel_of_mem {α : Type} {R : α → α → Prop} :
    ∀ {L : List α} {x y : α}, L.Pairwise R → x ∈ L → y ∈ L → x ≠ y → R x y ∨ R y x := by
  intro L
  induction L with
  | nil => intro x y _ hx; simp at hx
  | cons a L' ih =>
    intro x y hp hx hy hne
    rcases List.pairwise_cons.mp hp with ⟨ha, hp'⟩
    rcases List.mem_cons.mp hx with rfl | hx'
    · rcases List.mem_cons.mp hy with rfl | hy'
      · exact absurd rfl hne
      · exact Or.inl (ha y hy')
    · rcases List.mem_cons.mp hy with rfl | hy'
      · exact Or.inr (ha x hx')
      · exact ih hp' hx' hy' hne

/-! ### Digit characters, parsing, zero-padded formatting -/

theorem digitChar_lt : ∀ e, e < 10 → ∀ d, d < e → Nat.digitChar d < Nat.digitChar e := by
  decide

theorem digitChar_ne_dot : ∀ d, d < 10 → Nat.digitChar d ≠ '.' := by decide

theorem digitChar_isDigit : ∀ d, d < 10 → (Nat.digitChar d).isDigit = true := by decide

theorem digitChar_toNat : ∀ d, d < 10 → (Nat.digitChar d).toNat - 48 = d := by decide

theorem padDigits_length : ∀ k n, (padDigits k n).length = k
  | 0, _ => rfl
  | k + 1, n => by rw [padDigits, List.length_cons, padDigits_length k]

theorem div_pow_lt_ten {k n : Nat} (h : n < 10 ^ (k + 1)) : n / 10 ^ k < 10 :=
  (Nat.div_lt_iff_lt_mul (Nat.pos_pow_of_pos k (by norm_num))).mpr (by
    rw [Nat.mul_comm]
    exact lt_of_lt_of_le h (le_of_eq (pow_succ 10 k)))

theorem dot_not_mem_padDigits : ∀ k n, n < 10 ^ k → '.' ∉ padDigits k n := by
  intro k
  induction k with
  | zero => intro n _ h; exact absurd h (List.not_mem_nil '.')
  | succ k ih =>
    intro n hn h
    rw [padDigits] at h
    rcases List.mem_cons.mp h with heq | hmem
    · exact digitChar_ne_dot (n / 10 ^ k) (div_pow_lt_ten hn) heq.symm
    · exact ih (n % 10 ^ k) (Nat.mod_lt n (Nat.pos_pow_of_pos k (by norm_num))) hmem

theorem parseDigits_padDigits : ∀ k n acc, n < 10 ^ k →
    parseDigits (padDigits k n) acc = some (acc * 10 ^ k + n) := by
  intro k
  induction k with
  | zero =>
    intro n acc hn
    interval_cases n
    simp [padDigits, parseDigits]
  | succ k ih =>
    intro n acc hn
    rw [padDigits, parseDigits,
      if_pos (digitChar_isDigit (n / 10 ^ k) (div_pow_lt_ten hn)),
      digitChar_toNat (n / 10 ^ k) (div_pow_lt_ten hn),
      ih (n % 10 ^ k) _ (Nat.mod_lt n (Nat.pos_pow_of_pos k (by norm_num)))]
    congr 1
    rw [pow_succ]
    calc (acc * 10 + n / 10 ^ k) * 10 ^ k + n % 10 ^ k
        = acc * (10 ^ k * 10) + (10 ^ k * (n / 10 ^ k) + n % 10 ^ k) := by ring
      _ = acc * (10 ^ k * 10) + n := by rw [Nat.div_add_mod]

theorem lexLt_padDigits : ∀ k a b, a < b → b < 10 ^ k →
    lexLt (padDigits k a) (padDigits k b) = true := by
  intro k
  induction k with
  | zero => intro a b hab hb; omega
  | succ k ih =>
    intro a b hab hb
    have hb10 : b / 10 ^ k < 10 := div_pow_lt_ten hb
    have hle : a / 10 ^ k ≤ b / 10 ^ k := Nat.div_le_div_right (le_of_lt hab)
    rw [padDigits, padDigits, lexLt]
    rcases lt_or_eq_of_le hle with hlt | heq
    · rw [if_pos (digitChar_lt (b / 10 ^ k) hb10 (a / 10 ^ k) hlt)]
    · rw [heq, if_neg (lt_irrefl _), if_pos rfl]
      apply ih
      · have ha' := Nat.div_add_mod a (10 ^ k)
        have hb' := Nat.div_add_mod b (10 ^ k)
        rw [heq] at ha'
        omega
      · exact Nat.mod_lt b (Nat.pos_pow_of_pos k (by norm_num))

theorem lexLt_append_samelen : ∀ (l₁ l₂ t₁ t₂ : List Char), l₁.length = l₂.length →
    lexLt l₁ l₂ = true → lexLt (l₁ ++ t₁) (l₂ ++ t₂) = true := by
  intro l₁
  induction l₁ with
  | nil =>
    intro l₂ t₁ t₂ hlen h
    cases l₂ with
    | nil => simp [lexLt] at h
    | cons y ys => simp at hlen
  | cons x xs ih =>
    intro l₂ t₁ t₂ hlen h
    cases l₂ with
    | nil => simp at hlen
    | cons y ys =>
      rw [List.cons_append, List.cons_append, lexLt]
      rw [lexLt] at h
      by_cases hxy : x < y
      · rw [if_pos hxy]
      · rw [if_neg hxy] at h ⊢
        by_cases heq : x = y
        · rw [if_pos heq] at h ⊢
          exact ih ys t₁ t₂ (by simpa using hlen) h
        · rw [if_neg heq] at h
          exact absurd h (by simp)

theorem lt_pow_numDigitsGo : ∀ f n, n ≤ f → n < 10 ^ numDigitsGo f n := by
  intro f
  induction f with
  | zero =>
    intro n hn
    interval_cases n
    simp [numDigitsGo]
  | succ f ih =>
    intro n hn
    rw [numDigitsGo]
    by_cases h10 : n < 10
    · rw [if_pos h10]; simpa using h10
    · rw [if_neg h10]
      have hrec : n / 10 ≤ f := by omega
      have := ih (n / 10) hrec
      have hdm := Nat.div_add_mod n 10
      have hm : n % 10 < 10 := Nat.mod_lt n (by norm_num)
      rw [pow_succ]
      omega

theorem numDigitsGo_le : ∀ f n k, n ≤ f → n < 10 ^ k → 1 ≤ k → numDigitsGo f n ≤ k := by
  intro f
  induction f with
  | zero => intro n k _ _ hk; simpa [numDigitsGo] using hk
  | succ f ih =>
    intro n k hn hnk hk
    rw [numDigitsGo]
    by_cases h10 : n < 10
    · rw [if_pos h10]; exact hk
    · rw [if_neg h10]
      rcases k with _ | k'
      · omega
      · have hk' : 1 ≤ k' := by
          by_contra h
          have : k' = 0 := by omega
          subst this
          simp at hnk
          omega
        have hrec : n / 10 ≤ f := by omega
        have hdiv : n / 10 < 10 ^ k' := by
          rw [pow_succ] at hnk
          exact (Nat.div_lt_iff_lt_mul (by norm_num)).mpr hnk
        have := ih (n / 10) k' hrec hdiv hk'
        omega

theorem numDigits_spec (n : Nat) : n < 10 ^ numDigits n := lt_pow_numDigitsGo n n le_rfl

theorem numDigits_le_four {n : Nat} (h : n ≤ 9999) : numDigits n ≤ 4 :=
  numDigitsGo_le n n 4 le_rfl (by norm_num; omega) (by norm_num)

theorem pad4_eq_padDigits {n : Nat} (h : n ≤ 9999) : pad4 n = padDigits 4 n := by
  rw [pad4, max_eq_left (numDigits_le_four h)]

theorem lt_pow_max_numDigits (n : Nat) : n < 10 ^ max 4 (numDigits n) :=
  lt_of_lt_of_le (numDigits_spec n)
    (Nat.pow_le_pow_right (by norm_num) (le_max_right 4 (numDigits n)))

theorem pad4_ne_nil (n : Nat) : pad4 n ≠ [] := by
  apply List.ne_nil_of_length_pos
  rw [pad4, padDigits_length]
  omega

theorem dot_not_mem_pad4 (n : Nat) : '.' ∉ pad4 n :=
  dot_not_mem_padDigits _ n (lt_pow_max_numDigits n)

theorem lexLt_pad4 {a b : Nat} (hab : a < b) (hb : b ≤ 9999) :
    lexLt (pad4 a ++ pngExt) (pad4 b ++ pngExt) = true := by
  rw [pad4_eq_padDigits (le_of_lt (lt_of_lt_of_le hab hb)), pad4_eq_padDigits hb]
  exact lexLt_append_samelen _ _ _ _
    (by rw [padDigits_length, padDigits_length])
    (lexLt_padDigits 4 a b hab (by norm_num; omega))

/-! ### Stems and parses of constructed page names -/

theorem lastDotIdx_append_png : ∀ xs : List Char, '.' ∉ xs →
    lastDotIdx (xs ++ pngExt) = some xs.length := by
  intro xs
  induction xs with
  | nil => intro _; decide
  | cons c cs ih =>
    intro h
    have hcs : '.' ∉ cs := fun hm => h (List.mem_cons_of_mem c hm)
    rw [List.cons_append]
    show (match lastDotIdx (cs ++ pngExt) with
      | some i => some (i + 1)
      | none => if c = '.' then some 0 else none) = some (c :: cs).length
    rw [ih hcs]
    rfl

theorem stem_append_png {xs : List Char} (hne : xs ≠ []) (hdot : '.' ∉ xs) :
    stem (xs ++ pngExt) = xs := by
  simp only [stem, lastDotIdx_append_png xs hdot]
  rw [if_pos, List.take_left]
  constructor
  · exact List.length_pos.mpr hne
  · rw [List.length_append, show pngExt.length = 4 from rfl]
    omega

theorem parseNat?_eq_parseDigits {l : List Char} (h : l ≠ []) : parseNat? l = parseDigits l 0 := by
  cases l with
  | nil => exact absurd rfl h
  | cons c cs => rfl

theorem parseNat?_pad4 (k : Nat) : parseNat? (pad4 k) = some k := by
  rw [parseNat?_eq_parseDigits (pad4_ne_nil k), pad4,
    parseDigits_padDigits _ _ _ (lt_pow_max_numDigits k)]
  simp

theorem seqNum_pad4 (k : Nat) : seqNum (pad4 k ++ pngExt) = k := by
  rw [seqNum, stem_append_png (pad4_ne_nil k) (dot_not_mem_pad4 k), parseNat?_pad4]
  rfl

theorem pad4_append_inj {a b : Nat} (h : pad4 a ++ pngExt = pad4 b ++ pngExt) : a = b := by
  have h2 := congrArg seqNum h
  rwa [seqNum_pad4, seqNum_pad4] at h2

theorem next_filename_eq_nextSeq (d : Dir) :
    next_filename d = (nextSeq d).map (fun n => pad4 n ++ pngExt) := by
  rw [next_filename, nextSeq]
  cases (sortedGlob d).getLast? with
  | none => decide
  | some last =>
    show (parseNat? (stem last)).map (fun n => pad4 (n + 1) ++ pngExt)
        = ((parseNat? (stem last)).map (· + 1)).map (fun n => pad4 n ++ pngExt)
    cases parseNat? (stem last) with
    | none => rfl
    | some v => rfl

theorem nextSeq_pos {d : Dir} {v : Nat} (h : nextSeq d = some v) : 1 ≤ v := by
  rw [nextSeq] at h
  cases hg : (sortedGlob d).getLast? with
  | none =>
    rw [hg] at h
    have h1 : some 1 = some v := h
    have h2 : 1 = v := Option.some.inj h1
    omega
  | some last =>
    rw [hg] at h
    have h1 : (parseNat? (stem last)).map (· + 1) = some v := h
    cases hp : parseNat? (stem last) with
    | none => rw [hp] at h1; simp at h1
    | some w =>
      rw [hp] at h1
      simp only [Option.map_some'] at h1
      have h2 : w + 1 = v := Option.some.inj h1
      omega

/-! ### Directory operations -/

theorem names_cons (p : FileName × FData) (l : Dir) : names (p :: l) = p.1 :: names l := rfl

theorem mem_names_writeFile : ∀ (d : Dir) (name m : FileName) (c : FData),
    m ∈ names (writeFile d name c) → m = name ∨ m ∈ names d := by
  intro d name m c
  induction d with
  | nil =>
    intro h
    simp only [writeFile, names_cons] at h
    rcases List.mem_cons.mp h with h1 | h1
    · exact Or.inl h1
    · simp [names] at h1
  | cons p ps ih =>
    intro h
    rw [writeFile] at h
    by_cases hp : p.1 = name
    · rw [if_pos hp, names_cons] at h
      rcases List.mem_cons.mp h with h1 | h1
      · exact Or.inl h1
      · exact Or.inr (by rw [names_cons]; exact List.mem_cons_of_mem _ h1)
    · rw [if_neg hp, names_cons] at h
      rcases List.mem_cons.mp h with h1 | h1
      · exact Or.inr (by rw [names_cons]; exact h1 ▸ List.mem_cons_self p.1 (names ps))
      · rcases ih h1 with h2 | h2
        · exact Or.inl h2
        · exact Or.inr (by rw [names_cons]; exact List.mem_cons_of_mem _ h2)

theorem nodup_names_writeFile : ∀ (d : Dir) (name : FileName) (c : FData),
    (names d).Nodup → (names (writeFile d name c)).Nodup := by
  intro d name c
  induction d with
  | nil => intro _; simp [writeFile, names]
  | cons p ps ih =>
    intro h
    rw [names_cons, List.nodup_cons] at h
    rw [writeFile]
    by_cases hp : p.1 = name
    · rw [if_pos hp, names_cons, List.nodup_cons]
      exact ⟨hp ▸ h.1, h.2⟩
    · rw [if_neg hp, names_cons, List.nodup_cons]
      refine ⟨fun hmem => ?_, ih h.2⟩
      rcases mem_names_writeFile ps name p.1 c hmem with h1 | h1
      · exact hp h1
      · exact h.1 h1

theorem writeFile_not_mem : ∀ (d : Dir) (name : FileName) (c : FData),
    name ∉ names d → writeFile d name c = d ++ [(name, c)] := by
  intro d name c
  induction d with
  | nil => intro _; rfl
  | cons p ps ih =>
    intro h
    rw [names_cons] at h
    have h1 : p.1 ≠ name := fun he => h (he ▸ List.mem_cons_self p.1 (names ps))
    rw [writeFile, if_neg h1, List.cons_append, ih (fun hm => h (List.mem_cons_of_mem _ hm))]

theorem lookup_writeFile_self : ∀ (d : Dir) (name : FileName) (c : FData),
    (writeFile d name c).lookup name = some c := by
  intro d name c
  induction d with
  | nil => simp [writeFile, List.lookup]
  | cons p ps ih =>
    rw [writeFile]
    by_cases hp : p.1 = name
    · rw [if_pos hp]; simp [List.lookup]
    · rw [if_neg hp]
      have hb : (name == p.1) = false := beq_eq_false_iff_ne.mpr (fun he => hp he.symm)
      simp [List.lookup, hb, ih]

theorem lookup_writeFile_ne : ∀ (d : Dir) (name m : FileName) (c : FData), m ≠ name →
    (writeFile d name c).lookup m = d.lookup m := by
  intro d name m c hne
  induction d with
  | nil =>
    have hb : (m == name) = false := beq_eq_false_iff_ne.mpr hne
    simp [writeFile, List.lookup, hb]
  | cons p ps ih =>
    rw [writeFile]
    by_cases hp : p.1 = name
    · rw [if_pos hp]
      have hb : (m == name) = false := beq_eq_false_iff_ne.mpr hne
      have hb2 : (m == p.1) = false := beq_eq_false_iff_ne.mpr (hp ▸ hne)
      simp [List.lookup, hb, hb2]
    · rw [if_neg hp]
      by_cases hm : m = p.1
      · have hb : (m == p.1) = true := beq_iff_eq.mpr hm
        simp [List.lookup, hb]
      · have hb : (m == p.1) = false := beq_eq_false_iff_ne.mpr hm
        simp [List.lookup, hb, ih]

theorem mem_eraseFile {p : FileName × FData} {d : Dir} {name : FileName} :
    p ∈ eraseFile d name ↔ p ∈ d ∧ p.1 ≠ name := by
  simp [eraseFile, List.mem_filter]

theorem eraseFile_cons_self {p : FileName × FData} {ps : Dir} {name : FileName}
    (hp : p.1 = name) : eraseFile (p :: ps) name = eraseFile ps name := by
  simp [eraseFile, List.filter_cons, hp]

theorem eraseFile_cons_ne {p : FileName × FData} {ps : Dir} {name : FileName}
    (hp : p.1 ≠ name) : eraseFile (p :: ps) name = p :: eraseFile ps name := by
  simp [eraseFile, List.filter_cons, hp]

theorem names_eraseFile (d : Dir) (name : FileName) :
    names (eraseFile d name) = (names d).filter (fun m => decide (m ≠ name)) := by
  induction d with
  | nil => rfl
  | cons p ps ih =>
    by_cases hp : p.1 = name
    · rw [eraseFile_cons_self hp, ih, names_cons, List.filter_cons]
      simp [hp]
    · rw [eraseFile_cons_ne hp, names_cons, names_cons, ih, List.filter_cons]
      simp [hp]

theorem not_mem_names_eraseFile (d : Dir) (name : FileName) :
    name ∉ names (eraseFile d name) := by
  rw [names_eraseFile]
  intro h
  have h2 := (List.mem_filter.mp h).2
  simp at h2

theorem eraseFile_length : ∀ (d : Dir) (name : FileName), (names d).Nodup →
    name ∈ names d → (eraseFile d name).length + 1 = d.length := by
  intro d name
  induction d with
  | nil => intro _ h; simp [names] at h
  | cons p ps ih =>
    intro hnd hmem
    rw [names_cons, List.nodup_cons] at hnd
    by_cases hp : p.1 = name
    · have hall : eraseFile ps name = ps := by
        rw [eraseFile]
        apply List.filter_eq_self.mpr
        intro q hq
        simp only [ne_eq, decide_eq_true_eq]
        intro he
        exact hnd.1 (hp ▸ he ▸ List.mem_map_of_mem Prod.fst hq)
      rw [eraseFile_cons_self hp, hall]
      simp
    · have hmem2 : name ∈ names ps := by
        rcases List.mem_cons.mp hmem with h1 | h1
        · exact absurd h1.symm hp
        · exact h1
      rw [eraseFile_cons_ne hp, List.length_cons, List.length_cons]
      have h3 := ih hnd.2 hmem2
      omega

theorem mem_sortedGlob_names {m : FileName} {d : Dir} (h : m ∈ sortedGlob d) :
    m ∈ names d := by
  rw [sortedGlob, mem_sortNames] at h
  exact (List.mem_filter.mp h).1

theorem hasPngExt_append (xs : List Char) : hasPngExt (xs ++ pngExt) = true := by
  have hlen : (xs ++ pngExt).length - 4 = xs.length := by
    rw [List.length_append, show pngExt.length = 4 from rfl]
    omega
  rw [hasPngExt, hlen, List.drop_left]
  simp

/-! ### The canonical catalog `0001.png .. n` and reachability -/

theorem names_canonical (n : Nat) :
    names (canonical n) = (List.range n).map (fun i => pad4 (i + 1) ++ pngExt) := by
  rw [canonical, names, List.map_map]
  rfl

theorem filter_names_canonical (n : Nat) :
    (names (canonical n)).filter hasPngExt = names (canonical n) := by
  apply List.filter_eq_self.mpr
  intro m hm
  rw [names_canonical] at hm
  rcases List.mem_map.mp hm with ⟨i, _, rfl⟩
  exact hasPngExt_append _

theorem canonical_names_sorted {n : Nat} (h : n ≤ 9999) :
    (names (canonical n)).Pairwise (fun a b => lexLt a b = true) := by
  rw [names_canonical]
  apply List.pairwise_map.mpr
  apply (List.pairwise_lt_range n).imp_of_mem
  intro i j hi hj hij
  exact lexLt_pad4 (by omega) (by have := List.mem_range.mp hj; omega)

theorem sortedGlob_canonical {n : Nat} (h : n ≤ 9999) :
    sortedGlob (canonical n) = names (canonical n) := by
  rw [sortedGlob, filter_names_canonical, sortNames_eq_self (canonical_names_sorted h)]

theorem getLast_names_canonical (n : Nat) :
    (names (canonical (n + 1))).getLast? = some (pad4 (n + 1) ++ pngExt) := by
  rw [names_canonical, List.range_succ, List.map_append]
  exact List.getLast?_concat _

theorem nextSeq_of_getLast {d : Dir} {last : FileName}
    (h : (sortedGlob d).getLast? = some last) :
    nextSeq d = (parseNat? (stem last)).map (· + 1) := by
  rw [nextSeq, h]

theorem nextSeq_of_empty {d : Dir} (h : (sortedGlob d).getLast? = none) :
    nextSeq d = some 1 := by
  rw [nextSeq, h]

theorem nextSeq_canonical : ∀ n : Nat, n ≤ 9999 → nextSeq (canonical n) = some (n + 1) := by
  intro n h
  cases n with
  | zero => decide
  | succ m =>
    have hl : (sortedGlob (canonical (m + 1))).getLast? = some (pad4 (m + 1) ++ pngExt) := by
      rw [sortedGlob_canonical h, getLast_names_canonical]
    rw [nextSeq_of_getLast hl,
      stem_append_png (pad4_ne_nil (m + 1)) (dot_not_mem_pad4 (m + 1)), parseNat?_pad4]
    rfl

theorem next_filename_canonical {n : Nat} (h : n ≤ 9999) :
    next_filename (canonical n) = some (pad4 (n + 1) ++ pngExt) := by
  rw [next_filename_eq_nextSeq, nextSeq_canonical n h]
  rfl

theorem pad4_fresh (n : Nat) : pad4 (n + 1) ++ pngExt ∉ names (canonical n) := by
  intro hmem
  rw [names_canonical] at hmem
  rcases List.mem_map.mp hmem with ⟨i, hi, heq⟩
  have := pad4_append_inj heq
  have := List.mem_range.mp hi
  omega

theorem canonical_step {n : Nat} (h : n ≤ 9999) :
    appendStep (canonical n) = canonical (n + 1) := by
  rw [appendStep, next_filename_canonical h]
  show writeFile (canonical n) (pad4 (n + 1) ++ pngExt) (.raw 0) = canonical (n + 1)
  rw [writeFile_not_mem _ _ _ (pad4_fresh n), canonical, canonical, List.range_succ,
    List.map_append]
  rfl

theorem appendTimes_canonical : ∀ n : Nat, n ≤ 10000 → appendTimes n = canonical n := by
  intro n
  induction n with
  | zero => intro _; rfl
  | succ m ih =>
    intro h
    rw [appendTimes, ih (by omega), canonical_step (by omega)]

theorem reach_canonical : ∀ n : Nat, n ≤ 10000 → Reach (canonical n) := by
  intro n
  induction n with
  | zero => intro _; exact Reach.empty
  | succ m ih =>
    intro h
    have hr := Reach.append 0 (ih (by omega)) (next_filename_canonical (show m ≤ 9999 by omega))
    have heq : writeFile (canonical m) (pad4 (m + 1) ++ pngExt) (.raw 0) = canonical (m + 1) := by
      rw [writeFile_not_mem _ _ _ (pad4_fresh m), canonical, canonical, List.range_succ,
        List.map_append]
      rfl
    exact heq ▸ hr

theorem reach_names_pad4 {d : Dir} (h : Reach d) :
    ∀ m ∈ names d, ∃ k, 1 ≤ k ∧ m = pad4 k ++ pngExt := by
  induction h with
  | empty => intro m hm; simp [names] at hm
  | @append d name f _ hnf ih =>
    intro m hm
    rcases mem_names_writeFile d name m (.raw f) hm with rfl | hm2
    · rw [next_filename_eq_nextSeq] at hnf
      cases hv : nextSeq d with
      | none => rw [hv] at hnf; simp at hnf
      | some v =>
        rw [hv] at hnf
        simp only [Option.map_some', Option.some.injEq] at hnf
        exact ⟨v, nextSeq_pos hv, hnf.symm⟩
    · exact ih m hm2
  | @delete d i name _ _ ih =>
    intro m hm
    rw [names_eraseFile] at hm
    exact ih m (List.mem_filter.mp hm).1

theorem reach_nodup {d : Dir} (h : Reach d) : (names d).Nodup := by
  induction h with
  | empty => simp [names]
  | @append d name f _ _ ih => exact nodup_names_writeFile d name (.raw f) ih
  | @delete d i name _ _ ih =>
    rw [names_eraseFile]
    exact ih.filter _

/-! ### Auxiliary facts used by the claim theorems -/

theorem lookup_isSome_of_mem : ∀ (d : Dir) (m : FileName), m ∈ names d →
    (d.lookup m).isSome := by
  intro d
  induction d with
  | nil => intro m hm; simp [names] at hm
  | cons p ps ih =>
    intro m hm
    rw [names_cons] at hm
    by_cases he : m = p.1
    · have hb : (m == p.1) = true := beq_iff_eq.mpr he
      simp [List.lookup, hb]
    · have hb : (m == p.1) = false := beq_eq_false_iff_ne.mpr he
      rcases List.mem_cons.mp hm with h1 | h1
      · exact absurd h1 he
      · simp only [List.lookup, hb]
        exact ih m h1

theorem on_closing_idem (c : Camera) : on_closing (on_closing c) = on_closing c := by
  by_cases hc : c.opened = true
  · simp [on_closing, Camera.release, hc]
  · simp [on_closing, hc]

/-! ### The claims -/

/-- C1 (counterexample): the catalog reached by 10000 appends from an
empty directory is a reachable state whose listing is NOT sorted
strictly ascending by numeric sequence: the lexical sort used by the
source places `10000.png` before `1001.png`. -/
theorem list_sorted_by_seq_cex :
    Reach (appendTimes 10000) ∧
    ¬ (sortedGlob (appendTimes 10000)).Pairwise (fun a b => seqNum a < seqNum b) := by
  have hc : appendTimes 10000 = canonical 10000 := appendTimes_canonical 10000 le_rfl
  constructor
  · rw [hc]; exact reach_canonical 10000 le_rfl
  · rw [hc]
    intro hP
    have hS : (sortedGlob (canonical 10000)).Pairwise (fun a b => lexLt b a = false) :=
      sortNames_sorted _
    have hx : (pad4 10000 ++ pngExt) ∈ sortedGlob (canonical 10000) := by
      rw [sortedGlob, mem_sortNames]
      refine List.mem_filter.mpr ⟨?_, hasPngExt_append _⟩
      rw [names_canonical]
      exact List.mem_map.mpr ⟨9999, List.mem_range.mpr (by norm_num), by norm_num⟩
    have hy : (pad4 1001 ++ pngExt) ∈ sortedGlob (canonical 10000) := by
      rw [sortedGlob, mem_sortNames]
      refine List.mem_filter.mpr ⟨?_, hasPngExt_append _⟩
      rw [names_canonical]
      exact List.mem_map.mpr ⟨1000, List.mem_range.mpr (by norm_num), by norm_num⟩
    have hne : (pad4 10000 ++ pngExt) ≠ (pad4 1001 ++ pngExt) := by decide
    rcases pairwise_rel_of_mem (hS.and hP) hx hy hne with ⟨_, h2⟩ | ⟨h1, _⟩
    · rw [seqNum_pad4, seqNum_pad4] at h2
      omega
    · have hlt : lexLt (pad4 10000 ++ pngExt) (pad4 1001 ++ pngExt) = true := by decide
      rw [hlt] at h1
      exact absurd h1 (by simp)

/-- C1 (amended): for every catalog reachable by the program's appends
and deletes, as long as every page's sequence number is at most 9999
(i.e. within the 4-digit zero padding), the listing is sorted strictly
ascending by numeric sequence with no duplicates; beyond the padding
width this fails (see the counterexample). -/
theorem list_sorted_by_seq_within_pad (d : Dir) (hr : Reach d)
    (hb : ∀ m ∈ names d, seqNum m ≤ 9999) :
    (sortedGlob d).Pairwise (fun a b => seqNum a < seqNum b) := by
  have hS : (sortedGlob d).Pairwise (fun a b => lexLt b a = false) := sortNames_sorted _
  have hN : (sortedGlob d).Nodup := sortNames_nodup ((reach_nodup hr).filter _)
  refine (hS.and hN).imp_of_mem ?_
  intro a b ha hb2 hab
  rcases hab with ⟨hle, hne⟩
  rcases reach_names_pad4 hr a (mem_sortedGlob_names ha) with ⟨ka, hka, rfl⟩
  rcases reach_names_pad4 hr b (mem_sortedGlob_names hb2) with ⟨kb, hkb, rfl⟩
  rw [seqNum_pad4, seqNum_pad4]
  have hba : ka ≤ 9999 := by
    have := hb _ (mem_sortedGlob_names ha); rwa [seqNum_pad4] at this
  rcases lt_trichotomy ka kb with h | h | h
  · exact h
  · exact absurd (by rw [h]) hne
  · exact absurd hle (by rw [lexLt_pad4 h hba]; simp)

/-- C1 (witness): the amended theorem applied to the concrete catalog
after two appends. -/
theorem list_sorted_by_seq_within_pad_witness :
    (sortedGlob (canonical 2)).Pairwise (fun a b => seqNum a < seqNum b) :=
  list_sorted_by_seq_within_pad (canonical 2) (reach_canonical 2 (by norm_num)) (by decide)

/-- C2 (counterexample): with pages `0001.png, 0002.png` the user selects
position 1 (page `0002.png`); the catalog then changes (a file
`0000.png` appears); the delete acting on the stored position deletes
`0001.png`, a file other than the page the user selected. -/
theorem delete_stale_selection_cex :
    (sortedGlob [("0001.png".toList, FData.raw 1), ("0002.png".toList, FData.raw 2)]).get? 1
      = some "0002.png".toList ∧
    (delete_selected (some 1) true
        (writeFile [("0001.png".toList, FData.raw 1), ("0002.png".toList, FData.raw 2)]
          "0000.png".toList (FData.raw 9))).1
      = DelResult.deleted "0001.png".toList ∧
    "0001.png".toList ≠ "0002.png".toList := by
  refine ⟨by decide, by decide, by decide⟩

/-- C2 (amended): the delete acts on the raw stored position in the
listing recomputed at deletion time: an out-of-range position raises an
uncaught IndexError (not a silent no-op, not a surfaced
InvalidSelection), and an in-range position deletes the file at that
position of the current listing, which need not be the page selected
earlier. -/
theorem delete_index_behaviour :
    (∀ (d : Dir) (i : Nat), (sortedGlob d).get? i = none →
      delete_selected (some i) true d = (.indexError, d)) ∧
    (∀ (d : Dir) (i : Nat) (name : FileName), (sortedGlob d).get? i = some name →
      delete_selected (some i) true d = (.deleted name, eraseFile d name)) := by
  constructor
  · intro d i h
    simp only [delete_selected]
    rw [h]
  · intro d i name h
    simp only [delete_selected]
    rw [h]
    simp

/-- C2 (witness): the amended theorem applied to a one-page catalog and
the out-of-range stored position 5. -/
theorem delete_index_behaviour_witness :
    delete_selected (some 5) true [("0001.png".toList, FData.raw 1)]
      = (DelResult.indexError, [("0001.png".toList, FData.raw 1)]) :=
  delete_index_behaviour.1 [("0001.png".toList, FData.raw 1)] 5 (by decide)

/-- C3 (counterexample): after 10000 appends from an empty catalog with
no deletions, `nextSequenceNumber()` returns 10000 rather than 10001:
the lexically last name is `9999.png`, not `10000.png`. -/
theorem nextSeq_after_appends_cex :
    nextSeq (appendTimes 10000) = some 10000 ∧
    nextSeq (appendTimes 10000) ≠ some (10000 + 1) := by
  have hc : appendTimes 10000 = canonical 10000 := appendTimes_canonical 10000 le_rfl
  have hmem : pad4 9999 ++ pngExt ∈ sortedGlob (canonical 10000) := by
    rw [sortedGlob, mem_sortNames]
    refine List.mem_filter.mpr ⟨?_, hasPngExt_append _⟩
    rw [names_canonical]
    exact List.mem_map.mpr ⟨9998, List.mem_range.mpr (by norm_num), by norm_num⟩
  have hmax : ∀ y ∈ sortedGlob (canonical 10000), lexLt (pad4 9999 ++ pngExt) y = false := by
    intro y hy
    have hyn := mem_sortedGlob_names hy
    rw [names_canonical] at hyn
    rcases List.mem_map.mp hyn with ⟨i, hi, rfl⟩
    have hi2 := List.mem_range.mp hi
    by_cases hlt : i + 1 < 9999
    · exact lexLt_asymm _ _ (lexLt_pad4 hlt (by norm_num))
    · by_cases heq : i + 1 = 9999
      · rw [heq]; exact lexLt_irrefl _
      · have h10 : i + 1 = 10000 := by omega
        rw [h10]
        decide
  have hlast : (sortedGlob (canonical 10000)).getLast? = some (pad4 9999 ++ pngExt) :=
    getLast?_eq_max _ _ (sortNames_sorted _) hmem hmax
  have hmain : nextSeq (canonical 10000) = some 10000 := by
    rw [nextSeq_of_getLast hlast,
      stem_append_png (pad4_ne_nil 9999) (dot_not_mem_pad4 9999), parseNat?_pad4]
    rfl
  refine ⟨by rw [hc]; exact hmain, by rw [hc, hmain]; simp⟩

/-- C3 (amended): `nextSequenceNumber()` on an empty catalog returns 1,
and after N appends from an empty catalog with no deletions it returns
N+1 for every N up to 9999 (within the 4-digit padding); at N = 10000 it
fails (see the counterexample). -/
theorem nextSeq_after_appends :
    (∀ d : Dir, sortedGlob d = [] → nextSeq d = some 1) ∧
    ∀ n : Nat, n ≤ 9999 → nextSeq (appendTimes n) = some (n + 1) := by
  constructor
  · intro d h
    exact nextSeq_of_empty (by rw [h]; rfl)
  · intro n h
    rw [appendTimes_canonical n (by omega), nextSeq_canonical n h]

/-- C3 (witness): the amended theorem applied at N = 5. -/
theorem nextSeq_after_appends_witness : nextSeq (appendTimes 5) = some 6 :=
  nextSeq_after_appends.2 5 (by norm_num)

/-- C4: the concrete scenario: from `0001.png, 0002.png, 0003.png`,
deleting position 1 removes exactly `0002.png`, the listing becomes
`[0001.png, 0003.png]`, and the next append name is `0004.png`, not
`0003.png` - sequence numbers are not reused. -/
theorem next_append_skips_deleted :
    delete_selected (some 1) true
        [("0001.png".toList, FData.raw 1), ("0002.png".toList, FData.raw 2),
         ("0003.png".toList, FData.raw 3)]
      = (DelResult.deleted "0002.png".toList,
         [("0001.png".toList, FData.raw 1), ("0003.png".toList, FData.raw 3)]) ∧
    sortedGlob [("0001.png".toList, FData.raw 1), ("0003.png".toList, FData.raw 3)]
      = ["0001.png".toList, "0003.png".toList] ∧
    next_filename [("0001.png".toList, FData.raw 1), ("0003.png".toList, FData.raw 3)]
      = some "0004.png".toList := by
  refine ⟨by decide, by decide, by decide⟩

/-- C5: for a valid position i of the current listing, the delete
removes exactly the one file at that position: the result state lacks
that name, keeps every other entry untouched, contains nothing new, has
exactly one entry fewer, and the next listing no longer contains the
name. -/
theorem delete_valid_position (d : Dir) (i : Nat) (name : FileName)
    (hnd : (names d).Nodup) (h : (sortedGlob d).get? i = some name) :
    delete_selected (some i) true d = (.deleted name, eraseFile d name) ∧
    name ∉ names (eraseFile d name) ∧
    (∀ p ∈ d, p.1 ≠ name → p ∈ eraseFile d name) ∧
    (∀ p ∈ eraseFile d name, p ∈ d ∧ p.1 ≠ name) ∧
    (eraseFile d name).length + 1 = d.length ∧
    name ∉ sortedGlob (eraseFile d name) := by
  have hmem : name ∈ names d := mem_sortedGlob_names (List.get?_mem h)
  refine ⟨?_, not_mem_names_eraseFile d name, ?_, ?_,
    eraseFile_length d name hnd hmem, ?_⟩
  · simp only [delete_selected]
    rw [h]
    simp
  · intro p hp hne
    exact mem_eraseFile.mpr ⟨hp, hne⟩
  · intro p hp
    exact mem_eraseFile.mp hp
  · intro hmem2
    exact not_mem_names_eraseFile d name (mem_sortedGlob_names hmem2)

/-- C5 (witness): the theorem applied to a one-page catalog at
position 0. -/
theorem delete_valid_position_witness :
    delete_selected (some 0) true [("0001.png".toList, FData.raw 4)]
      = (DelResult.deleted "0001.png".toList,
         eraseFile [("0001.png".toList, FData.raw 4)] "0001.png".toList) :=
  (delete_valid_position [("0001.png".toList, FData.raw 4)] 0 "0001.png".toList
    (by decide) (by decide)).1

theorem readImage?_writeFile_ne (d : Dir) (dest n : FileName) (c : FData) (hne : n ≠ dest) :
    readImage? (writeFile d dest c) n = readImage? d n := by
  unfold readImage?
  rw [lookup_writeFile_ne d dest n c hne]

theorem lookup_isSome_of_readImage? {d : Dir} {n : FileName}
    (h : (readImage? d n).isSome) : (d.lookup n).isSome := by
  unfold readImage? at h
  cases hl : d.lookup n with
  | none => rw [hl] at h; simp at h
  | some fd => rfl

theorem readPages_eq_map (d1 d : Dir) :
    ∀ l : List FileName, (∀ n ∈ l, readImage? d1 n = readImage? d n) →
    (∀ n ∈ l, (readImage? d n).isSome) →
    readPages d1 l = some (l.map (fun n => (readImage? d n).getD 0)) := by
  intro l
  induction l with
  | nil => intro _ _; rfl
  | cons n ns ih =>
    intro hsame hsome
    have hn := hsome n (List.mem_cons_self n ns)
    rcases Option.isSome_iff_exists.mp hn with ⟨b, hb⟩
    rw [readPages, hsame n (List.mem_cons_self n ns), hb,
      ih (fun m hm => hsame m (List.mem_cons_of_mem n hm))
        (fun m hm => hsome m (List.mem_cons_of_mem n hm))]
    simp [hb]

/-- C6 (counterexample): exporting with the destination set to an
existing page file destroys that page: the write-mode open truncates
`0001.png` before `img2pdf` reads it, the conversion then fails, and the
source page's content is gone - refuting "never deletes or modifies
source files". -/
theorem export_collision_cex :
    (make_pdf [("0001.png".toList, FData.raw 7), ("0002.png".toList, FData.raw 8)]
        (some "0001.png".toList)).1 = PdfResult.convertError ∧
    ((make_pdf [("0001.png".toList, FData.raw 7), ("0002.png".toList, FData.raw 8)]
        (some "0001.png".toList)).2).lookup "0001.png".toList = some FData.empty ∧
    some FData.empty ≠ some (FData.raw 7) := by
  refine ⟨by decide, by decide, by decide⟩

/-- C6 (amended): when the chosen destination is not one of the page
files, the export is non-destructive: it writes at the destination a PDF
with exactly one page per source image, carrying each source's bytes in
listing order, and every source file still exists with unchanged
contents; but a destination colliding with a page file truncates that
source page before conversion, which then fails (see the
counterexample). -/
theorem export_non_destructive (d : Dir) (dest : FileName)
    (h1 : sortedGlob d ≠ []) (h2 : dest ∉ sortedGlob d)
    (h3 : ∀ n ∈ sortedGlob d, (readImage? d n).isSome) :
    make_pdf d (some dest)
      = (.saved (sortedGlob d).length,
         writeFile (writeFile d dest .empty) dest
           (.pdfOf ((sortedGlob d).map (fun n => (readImage? d n).getD 0)))) ∧
    (∀ n ∈ sortedGlob d,
      ((make_pdf d (some dest)).2).lookup n = d.lookup n ∧ (d.lookup n).isSome) ∧
    ((make_pdf d (some dest)).2).lookup dest
      = some (.pdfOf ((sortedGlob d).map (fun n => (readImage? d n).getD 0))) ∧
    ((sortedGlob d).map (fun n => (readImage? d n).getD 0)).length
      = (sortedGlob d).length := by
  have hie : (sortedGlob d).isEmpty = false := by
    cases hsg : sortedGlob d with
    | nil => exact absurd hsg h1
    | cons a l => rfl
  have hsame : ∀ n ∈ sortedGlob d,
      readImage? (writeFile d dest .empty) n = readImage? d n := by
    intro n hn
    exact readImage?_writeFile_ne d dest n _ (fun he => h2 (he ▸ hn))
  have hrp : readPages (writeFile d dest .empty) (sortedGlob d)
      = some ((sortedGlob d).map (fun n => (readImage? d n).getD 0)) :=
    readPages_eq_map _ d (sortedGlob d) hsame h3
  have hm : make_pdf d (some dest)
      = (.saved (sortedGlob d).length,
         writeFile (writeFile d dest .empty) dest
           (.pdfOf ((sortedGlob d).map (fun n => (readImage? d n).getD 0)))) := by
    simp only [make_pdf, hie, Bool.false_eq_true, if_false]
    rw [hrp]
  refine ⟨hm, ?_, ?_, List.length_map _ _⟩
  · intro n hn
    have hne : n ≠ dest := fun he => h2 (he ▸ hn)
    constructor
    · rw [hm]
      show (writeFile (writeFile d dest .empty) dest
        (.pdfOf ((sortedGlob d).map (fun n => (readImage? d n).getD 0)))).lookup n
        = d.lookup n
      rw [lookup_writeFile_ne _ dest n _ hne, lookup_writeFile_ne d dest n _ hne]
    · exact lookup_isSome_of_readImage? (h3 n hn)
  · rw [hm]
    exact lookup_writeFile_self _ dest _

/-- C6 (witness): the amended theorem applied to a concrete two-page
catalog and destination `book.pdf`. -/
theorem export_non_destructive_witness :
    ((make_pdf [("0001.png".toList, FData.raw 7), ("0002.png".toList, FData.raw 8)]
        (some "book.pdf".toList)).2).lookup "book.pdf".toList
      = some (FData.pdfOf
          ((sortedGlob [("0001.png".toList, FData.raw 7), ("0002.png".toList, FData.raw 8)]).map
            (fun n => (readImage? [("0001.png".toList, FData.raw 7),
              ("0002.png".toList, FData.raw 8)] n).getD 0))) :=
  (export_non_destructive
    [("0001.png".toList, FData.raw 7), ("0002.png".toList, FData.raw 8)]
    "book.pdf".toList (by decide) (by decide) (by decide)).2.2.1

/-- C7: exporting with an empty listing fails with the no-pages error
and leaves the filesystem untouched - no output file is created (the
source returns before even asking for a destination). -/
theorem export_empty_fails (d : Dir) (dc : Option FileName) (h : sortedGlob d = []) :
    make_pdf d dc = (.noPages, d) := by
  have hie : (sortedGlob d).isEmpty = true := by rw [h]; rfl
  simp only [make_pdf, hie, if_true]

/-- C7 (witness): the theorem applied to the empty catalog. -/
theorem export_empty_fails_witness : make_pdf [] none = (.noPages, []) :=
  export_empty_fails [] none (by decide)

/-- C8 (counterexample): with catalog `0001.png, notes.png` the
lexically last stem `notes` does not parse, so `nextSequenceNumber()`
fails (uncaught ValueError) instead of skipping the non-conforming file
and returning 2. -/
theorem nextSeq_nonconforming_cex :
    nextSeq [("0001.png".toList, FData.raw 1), ("notes.png".toList, FData.raw 2)] = none ∧
    nextSeq [("0001.png".toList, FData.raw 1), ("notes.png".toList, FData.raw 2)] ≠ some 2 := by
  refine ⟨by decide, by decide⟩

/-- C8 (amended): files whose names do not end in `.png` are indeed
skipped (the glob never sees them and they cannot affect
`nextSequenceNumber()`); but a non-conforming `.png` name is not
skipped: whenever the lexically last globbed stem fails to parse, the
operation fails (ValueError) rather than falling back to the conforming
files. -/
theorem nextSeq_nonpng_skipped :
    (∀ (d : Dir) (m : FileName) (c : FData), hasPngExt m = false →
      nextSeq (d ++ [(m, c)]) = nextSeq d) ∧
    (∀ (d : Dir) (last : FileName), (sortedGlob d).getLast? = some last →
      parseNat? (stem last) = none → nextSeq d = none) := by
  constructor
  · intro d m c hpng
    have hf : (names (d ++ [(m, c)])).filter hasPngExt = (names d).filter hasPngExt := by
      simp only [names, List.map_append, List.filter_append]
      simp [hpng]
    have h2 : sortedGlob (d ++ [(m, c)]) = sortedGlob d := by
      rw [sortedGlob, sortedGlob, hf]
    unfold nextSeq
    rw [h2]
  · intro d last hl hp
    rw [nextSeq_of_getLast hl, hp]
    rfl

/-- C8 (witness): the amended theorem applied to a catalog extended by a
non-png file `readme.txt`. -/
theorem nextSeq_nonpng_skipped_witness :
    nextSeq ([("0001.png".toList, FData.raw 1)] ++ [("readme.txt".toList, FData.raw 3)])
      = nextSeq [("0001.png".toList, FData.raw 1)] :=
  nextSeq_nonpng_skipped.1 [("0001.png".toList, FData.raw 1)] "readme.txt".toList
    (FData.raw 3) (by decide)

/-- C9: closing the capture device is idempotent: after the first close,
any number of further closes leaves the device state unchanged, and a
close on an already-released device performs no release. -/
theorem camera_close_idempotent :
    (∀ (c : Camera) (n : Nat), on_closing^[n + 1] c = on_closing c) ∧
    on_closing { opened := false } = { opened := false } := by
  constructor
  · intro c n
    induction n with
    | zero => rfl
    | succ m ih => rw [Function.iterate_succ_apply', ih, on_closing_idem]
  · rfl

/-- C10: when the frame read fails during capture-one-page, the warning
is reported and the catalog is completely unchanged - no file is
created. -/
theorem capture_failed_frame_noop (d : Dir) : capture_page none d = (.noFrame, d) := rfl
